import Mathlib

set_option maxRecDepth 4000

/-!
Verification development for the `rlex2` lexical-analyzer generator
(`src/lexer.rs`).  The Rust code is shallowly embedded: state ids are `Nat`,
HashMap/HashSet become association lists / `Finset Nat`, the mutable
`NFABuilder.state_id` counter is threaded explicitly, and every `panic!` /
`assert!` in the source becomes an `Except Panic` error.  The external
`automata` crate (subset construction `into_dfa` and the DFA iterator used by
`Lexer::lex`) is not part of `src/`; those pieces are modelled from the spec
and are marked as such in their doc comments.
-/

namespace Rlex

/-- A Rust `panic!` / failed `assert!`: process-fatal, carrying its message. -/
structure Panic where
  msg : String
  deriving DecidableEq

instance {ε α : Type} [DecidableEq ε] [DecidableEq α] :
    DecidableEq (Except ε α) := fun x y =>
  match x, y with
  | .error e, .error f =>
      if h : e = f then .isTrue (by rw [h])
      else .isFalse (by intro he; cases he; exact h rfl)
  | .error _, .ok _ => .isFalse (by intro h; cases h)
  | .ok _, .error _ => .isFalse (by intro h; cases h)
  | .ok a, .ok b =>
      if h : a = b then .isTrue (by rw [h])
      else .isFalse (by intro he; cases he; exact h rfl)

/-- `automata::Transition`: either a concrete input character or the
distinguished epsilon marker (no-input move). -/
inductive Transition where
  | Input : Char → Transition
  | Epsilon : Transition
  deriving DecidableEq

/-- The transition relation `HashMap<(State, Transition), HashSet<State>>`,
embedded as an association list with first-match lookup. -/
abbrev TransMap := List ((Nat × Transition) × Finset Nat)

/-- Lookup of a key in the transition map (`HashMap::get` / occupancy test). -/
def lookupT (m : TransMap) (k : Nat × Transition) : Option (Finset Nat) :=
  (m.find? (fun e => decide (e.1 = k))).map (fun e => e.2)

/-- The `transitions.entry(trans).get()` pattern of `lexer.rs`: inserting a
key that is already present is a fatal `panic!("Duplicate states")`. -/
def insertChecked (m : TransMap) (k : Nat × Transition) (v : Finset Nat) :
    Except Panic TransMap :=
  match lookupT m k with
  | some _ => .error ⟨"Duplicate states"⟩
  | none => .ok ((k, v) :: m)

/-- Plain `HashMap::insert`: silently overwrites an existing binding. -/
def insertOv (m : TransMap) (k : Nat × Transition) (v : Finset Nat) : TransMap :=
  (k, v) :: m.filter (fun e => decide (¬ e.1 = k))

/-- The copy loops of `merge_nfas` / `construct_or_nfa` /
`construct_sequence_nfa`: every entry of the second map is inserted into the
first via the checked entry pattern (duplicate key ⇒ panic). -/
def copyInto : TransMap → TransMap → Except Panic TransMap
  | dst, [] => .ok dst
  | dst, e :: rest => do
      let dst' ← insertChecked dst e.1 e.2
      copyInto dst' rest

/-- `automata::NFA<usize>`: start state, accept states, transition relation.
Accept states are kept as a list (the source converts the `HashSet` to a
`Vec` at each use, always under an `assert_eq!(accept.len(), 1)`). -/
structure NFA where
  startState : Nat
  acceptStates : List Nat
  trans : TransMap
  deriving DecidableEq

/-- `NFABuilder::get_id`: return the current counter and increment it. -/
def getId (c : Nat) : Nat × Nat :=
  (c, c + 1)

/-- `RegEx` AST from the external `parse-regex` crate:
{Terminal, Sequence, Alternation (`Or`), Repetition}. -/
inductive RegEx where
  | Or : RegEx → RegEx → RegEx
  | Sequence : List RegEx → RegEx
  | Repetition : RegEx → RegEx
  | Terminal : Char → RegEx

/-- `NFABuilder::construct_terminal_nfa`: two fresh states and a single
character transition between them. -/
def constructTerminalNfa (ch : Char) (c : Nat) : NFA × Nat :=
  let (start, c) := getId c
  let (endS, c) := getId c
  (⟨start, [endS], [((start, Transition.Input ch), {endS})]⟩, c)

/-- `NFABuilder::construct_or_nfa`: fresh start and end states; the two
branch maps are merged with the checked-insert pattern; each branch must have
exactly one accept state (`assert_eq!`). -/
def constructOrNfa (n1 n2 : NFA) (c : Nat) : Except Panic (NFA × Nat) :=
  let (start, c) := getId c
  let (endS, c) := getId c
  do
    let m1 ← copyInto n1.trans n2.trans
    match n1.acceptStates, n2.acceptStates with
    | [a1], [a2] =>
        let m1 := insertOv m1 (start, Transition.Epsilon)
          {n1.startState, n2.startState}
        let m1 := insertOv m1 (a1, Transition.Epsilon) {endS}
        let m1 := insertOv m1 (a2, Transition.Epsilon) {endS}
        .ok (⟨start, [endS], m1⟩, c)
    | _, _ => .error ⟨"assert failed: accept.len() == 1"⟩

/-- The loop body of `NFABuilder::construct_sequence_nfa`: thread fragments
left to right, allocating one fresh junction (`end`) per element and splicing
with epsilon transitions. -/
def seqLoop : List NFA → Nat → Nat → TransMap →
    Except Panic (Nat × Nat × TransMap)
  | [], endS, c, m => .ok (endS, c, m)
  | n :: rest, endS, c, m =>
      let start := endS
      let (endS, c) := getId c
      do
        let m ← copyInto m n.trans
        match n.acceptStates with
        | [a] =>
            let m := insertOv m (start, Transition.Epsilon) {n.startState}
            let m := insertOv m (a, Transition.Epsilon) {endS}
            seqLoop rest endS c m
        | _ => .error ⟨"assert failed: accept.len() == 1"⟩

/-- `NFABuilder::construct_sequence_nfa`.  Note that for an empty sequence the
loop never runs, so `end` stays equal to `init_start` and the transition map
stays empty: the fragment is a single state that is both start and accept. -/
def constructSequenceNfa (v : List NFA) (c : Nat) : Except Panic (NFA × Nat) :=
  let (initStart, c) := getId c
  do
    let (endS, c, m) ← seqLoop v initStart c []
    .ok (⟨initStart, [endS], m⟩, c)

mutual

/-- `NFABuilder::regex_to_nfa`, with `construct_repetition_nfa` inlined in the
`Repetition` case (it allocates its start id, recurses on the inner regex,
then allocates its end id, exactly as the source does). -/
def regexToNfa : RegEx → Nat → Except Panic (NFA × Nat)
  | RegEx.Or r1 r2, c => do
      let (n1, c) ← regexToNfa r1 c
      let (n2, c) ← regexToNfa r2 c
      constructOrNfa n1 n2 c
  | RegEx.Sequence v, c => do
      let (ns, c) ← regexListToNfa v c
      constructSequenceNfa ns c
  | RegEx.Repetition r, c =>
      let (start, c) := getId c
      do
        let (n, c) ← regexToNfa r c
        let (endS, c') := getId c
        let m := n.trans
        match n.acceptStates with
        | [a] =>
            let m := insertOv m (start, Transition.Epsilon) {n.startState, endS}
            let m := insertOv m (a, Transition.Epsilon) {n.startState, endS}
            .ok (⟨start, [endS], m⟩, c')
        | _ => .error ⟨"assert failed: accept.len() == 1"⟩
  | RegEx.Terminal ch, c => .ok (constructTerminalNfa ch c)

/-- The `v.into_iter().map(|r| self.regex_to_nfa(*r)).collect()` of the
`Sequence` case: compile the elements left to right. -/
def regexListToNfa : List RegEx → Nat → Except Panic (List NFA × Nat)
  | [], c => .ok ([], c)
  | r :: rs, c => do
      let (n, c) ← regexToNfa r c
      let (ns, c) ← regexListToNfa rs c
      .ok (n :: ns, c)

end

/-- The fragment loop of `NFABuilder::merge_nfas`: copy each fragment's
transitions (checked inserts, duplicate key ⇒ panic), assert it has exactly
one accept state, extend the accept list, and record its start state. -/
def mergeCore : List NFA → TransMap → Finset Nat → List Nat →
    Except Panic (TransMap × Finset Nat × List Nat)
  | [], tr, ss, accs => .ok (tr, ss, accs)
  | n :: rest, tr, ss, accs => do
      let tr ← copyInto tr n.trans
      match n.acceptStates with
      | [a] => mergeCore rest tr (insert n.startState ss) (accs ++ [a])
      | _ => .error ⟨"assert failed: accept.len() == 1"⟩

/-- `NFABuilder::merge_nfas`: one fresh global start state, an epsilon
transition from it to every fragment's start state, accept states the union
of the fragments' accept states. -/
def mergeNfas (nfas : List NFA) (c : Nat) : Except Panic (NFA × Nat) :=
  let (start, c) := getId c
  do
    let (tr, ss, accs) ← mergeCore nfas [] ∅ []
    .ok (⟨start, accs, insertOv tr (start, Transition.Epsilon) ss⟩, c)

/-- Modelled from the spec (§4.3.1, glossary): one step towards the
epsilon-closure — add every epsilon successor of a member state.  The
closure computation lives in the external `automata` crate (`into_dfa`),
which is not part of `src/`. -/
def epsStep (tr : TransMap) (S : Finset Nat) : Finset Nat :=
  S ∪ S.biUnion (fun q => (lookupT tr (q, Transition.Epsilon)).getD ∅)

/-- Modelled from the spec (§4.3.1): the epsilon-closure of `S`, computed as
a bounded fixed-point iteration of `epsStep` (the fuel is always chosen large
enough for the iteration to stabilise). -/
def epsClosure (tr : TransMap) : Nat → Finset Nat → Finset Nat
  | 0, S => S
  | fuel + 1, S =>
      let S' := epsStep tr S
      if S' = S then S else epsClosure tr fuel S'

/-- Modelled from the spec (§4.3.3): the set of NFA states reachable from a
member of `S` on input character `ch` (before taking the closure). -/
def moveSet (tr : TransMap) (S : Finset Nat) (ch : Char) : Finset Nat :=
  S.biUnion (fun q => (lookupT tr (q, Transition.Input ch)).getD ∅)

/-- Modelled from the spec (§4.3.3): one DFA transition — move on `ch`, then
take the epsilon-closure. -/
def stepDfa (tr : TransMap) (fuel : Nat) (S : Finset Nat) (ch : Char) :
    Finset Nat :=
  epsClosure tr fuel (moveSet tr S ch)

/-- Modelled from the spec: the `dfa.iter(chars)` iterator of the `automata`
crate, which `Lexer::lex` drives.  It yields the DFA states (subsets of NFA
states) visited while consuming the input, starting from the given state and
stopping as soon as no DFA transition exists for the next character (an empty
reachable set). -/
def dfaIter (tr : TransMap) (fuel : Nat) : Finset Nat → List Char →
    List (Finset Nat)
  | S, [] => [S]
  | S, ch :: rest =>
      let S' := stepDfa tr fuel S ch
      if S' = ∅ then [S] else S :: dfaIter tr fuel S' rest

/-- Modelled from the spec (§4.3.4): the token `into_dfa` attaches to an
accepting DFA state — among the NFA accept states present in the subset, the
one of lowest registration order wins, and `accs` (built by `merge_nfas`)
lists the per-pattern accept states in registration order. -/
def winningTok {T : Type} (accs : List Nat) (tokMap : List (Nat × T))
    (S : Finset Nat) : Option T :=
  (accs.find? (fun a => decide (a ∈ S))).bind
    (fun a => (tokMap.find? (fun p => decide (p.1 = a))).map (fun p => p.2))

/-- The body of the `for state in dfa.iter(..)` loop of `Lexer::lex`: if the
current DFA state is accepting (its subset meets the NFA accept set), record
its token, otherwise keep the previous record. -/
def lexFold {T : Type} (accs : List Nat) (tokMap : List (Nat × T))
    (tok : Option T) (S : Finset Nat) : Option T :=
  if accs.any (fun a => decide (a ∈ S)) then winningTok accs tokMap S else tok

/-- Fuel bound used for the closure iterations of one scan: one more than the
total size of all destination sets of the transition map. -/
def nfaFuel (n : NFA) : Nat :=
  ((n.trans.map (fun e => e.2.card)).sum) + 1

/-- `Lexer<T>`: the builder counter (`NFABuilder.state_id`), the per-pattern
NFAs in registration order, and the accept-state → token map. -/
structure Lexer (T : Type) where
  nfaBuilder : Nat
  nfas : List NFA
  tokMap : List (Nat × T)
  deriving DecidableEq

/-- `Lexer::new`. -/
def Lexer.new (T : Type) : Lexer T :=
  ⟨0, [], []⟩

/-- `ParseError` of the external `parse-regex` crate.  Modelled from the
spec (§6): `parse(source) -> Result<RegexNode, ParseError{message, offset}>`. -/
structure ParseError where
  message : String
  offset : Nat
  deriving DecidableEq

/-- `Lexer::add_token`.  The external Pattern Parser is not part of `src/`,
so its result is taken as an argument (`parseResult` stands for `p.parse()`).
A parse error is a `panic!("Error in regex: ..")` in the source; the
`assert!(accept_states.len() == 1)` after construction is the `match` on the
accept list. -/
def addToken {T : Type} (l : Lexer T) (parseResult : Except ParseError RegEx)
    (token : T) : Except Panic (Lexer T) :=
  match parseResult with
  | .error e => .error ⟨"Error in regex: " ++ e.message⟩
  | .ok r => do
      let (nfa, c) ← regexToNfa r l.nfaBuilder
      match nfa.acceptStates with
      | [a] => .ok ⟨c, l.nfas ++ [nfa], (a, token) :: l.tokMap⟩
      | _ => .error ⟨"assert failed: accept_states.len() == 1"⟩

/-- `Lexer::lex`.  With no registered patterns it returns `[]` immediately;
otherwise it merges the per-pattern NFAs (consuming one fresh id for the
global start state), determinizes (modelled by the subset-construction walk
`dfaIter` starting from the closure of the start state), folds the visited
DFA states recording the token of the most recent accepting state, and
finally pushes at most that one recorded token. -/
def lex {T : Type} (l : Lexer T) (s : List Char) :
    Except Panic (List T × Lexer T) :=
  if l.nfas.length > 0 then
    match mergeNfas l.nfas l.nfaBuilder with
    | .error p => .error p
    | .ok (nfa, c) =>
        let fuel := nfaFuel nfa
        let states := dfaIter nfa.trans fuel
          (epsClosure nfa.trans fuel {nfa.startState}) s
        let tok := states.foldl (lexFold nfa.acceptStates l.tokMap) none
        .ok ((match tok with | some t => [t] | none => []),
          ⟨c, l.nfas, l.tokMap⟩)
  else .ok ([], l)

/-- The token type of the source's test module. -/
inductive Tok where
  | IF
  | WHILE
  | NUM
  deriving DecidableEq

/-- The AST the external parser produces for the pattern `"if"`
(modelled from the spec's RegexNode data model, §3). -/
def astIf : RegEx :=
  RegEx.Sequence [RegEx.Terminal 'i', RegEx.Terminal 'f']

/-- The AST the external parser produces for the pattern `"while"`. -/
def astWhile : RegEx :=
  RegEx.Sequence [RegEx.Terminal 'w', RegEx.Terminal 'h', RegEx.Terminal 'i',
    RegEx.Terminal 'l', RegEx.Terminal 'e']

/-- A lexer with only `"if"` registered. -/
def lexerIf : Except Panic (Lexer Tok) :=
  addToken (Lexer.new Tok) (.ok astIf) Tok.IF

/-- A lexer with `"if"` → IF and `"while"` → WHILE registered, as in the
source's test and the spec's end-to-end example. -/
def lexerIfWhile : Except Panic (Lexer Tok) := do
  let l ← addToken (Lexer.new Tok) (.ok astIf) Tok.IF
  addToken l (.ok astWhile) Tok.WHILE

/-- The NFA `add_token` builds for the pattern `"if"` (state ids 0–6):
`Terminal 'i'` uses 0/1, `Terminal 'f'` uses 2/3, the sequence splice uses
4 (start), 5 and 6 (accept). -/
def nfaIf : NFA :=
  ⟨4, [6],
    [((3, Transition.Epsilon), {6}), ((5, Transition.Epsilon), {2}),
     ((2, Transition.Input 'f'), {3}), ((1, Transition.Epsilon), {5}),
     ((4, Transition.Epsilon), {0}), ((0, Transition.Input 'i'), {1})]⟩

/-- The NFA `add_token` builds for the pattern `"while"` when registered
after `"if"` (state ids 7–22). -/
def nfaWhile : NFA :=
  ⟨17, [22],
    [((16, Transition.Epsilon), {22}), ((21, Transition.Epsilon), {15}),
     ((15, Transition.Input 'e'), {16}), ((14, Transition.Epsilon), {21}),
     ((20, Transition.Epsilon), {13}), ((13, Transition.Input 'l'), {14}),
     ((12, Transition.Epsilon), {20}), ((19, Transition.Epsilon), {11}),
     ((11, Transition.Input 'i'), {12}), ((10, Transition.Epsilon), {19}),
     ((18, Transition.Epsilon), {9}), ((9, Transition.Input 'h'), {10}),
     ((8, Transition.Epsilon), {18}), ((17, Transition.Epsilon), {7}),
     ((7, Transition.Input 'w'), {8})]⟩

/-- The concrete lexer value produced by registering only `"if"` → IF. -/
def lexerIfV : Lexer Tok :=
  ⟨7, [nfaIf], [(6, Tok.IF)]⟩

/-- The concrete lexer value produced by registering `"if"` → IF and then
`"while"` → WHILE. -/
def lexerIfWhileV : Lexer Tok :=
  ⟨23, [nfaIf, nfaWhile], [(22, Tok.WHILE), (6, Tok.IF)]⟩

/-- Modelled from the spec (§8): the language test of a single fragment —
run the subset simulation of the fragment over `s` and test whether the
final subset contains an accept state. -/
def nfaAccepts (n : NFA) (s : List Char) : Bool :=
  let fuel := nfaFuel n
  let final := s.foldl (fun S ch => stepDfa n.trans fuel S ch)
    (epsClosure n.trans fuel {n.startState})
  n.acceptStates.any (fun a => decide (a ∈ final))

/-- The transition-map keys are pairwise distinct (as they are in the
source's `HashMap`). -/
def keysNodup (m : TransMap) : Prop :=
  (m.map (fun e => e.1)).Nodup

/-- All source states of `m` lie in `[lo, hi)` and all destination states
are below `hi`. -/
def transBounded (m : TransMap) (lo hi : Nat) : Prop :=
  ∀ e ∈ m, lo ≤ e.1.1 ∧ e.1.1 < hi ∧ ∀ d ∈ e.2, d < hi

/-- The fragment only uses state ids in `[lo, hi)` (destinations and accept
states are at least upper-bounded, and accept states are no smaller than
`lo`). -/
def nfaBounded (n : NFA) (lo hi : Nat) : Prop :=
  lo ≤ n.startState ∧ n.startState < hi ∧
  (∀ a ∈ n.acceptStates, lo ≤ a ∧ a < hi) ∧ transBounded n.trans lo hi

/-- The fragments occupy consecutive disjoint id ranges covering `[lo, hi)`,
each with nodup transition keys and a single accept state. -/
def chainBounded : List NFA → Nat → Nat → Prop
  | [], lo, hi => hi = lo
  | n :: rest, lo, hi =>
      ∃ mid, lo < mid ∧ nfaBounded n lo mid ∧ keysNodup n.trans ∧
        (∃ a, n.acceptStates = [a]) ∧ chainBounded rest mid hi

instance (m : TransMap) : Decidable (keysNodup m) :=
  inferInstanceAs (Decidable (List.Nodup _))

/-- The cross-fragment key-disjointness relation of `merge_nfas`. -/
def transDisjoint (n1 n2 : NFA) : Prop :=
  ∀ e1 ∈ n1.trans, ∀ e2 ∈ n2.trans, ¬ e1.1 = e2.1

instance (n1 n2 : NFA) : Decidable (transDisjoint n1 n2) :=
  inferInstanceAs (Decidable (∀ e1 ∈ n1.trans, ∀ e2 ∈ n2.trans, ¬ e1.1 = e2.1))

/-- A lexer built by registering `"if"` → IF and then a second pattern that
also matches exactly `"if"` (its token is NUM), as in the spec's
registration-order tie-break example. -/
def lexerIfDup : Except Panic (Lexer Tok) := do
  let l ← addToken (Lexer.new Tok) (.ok astIf) Tok.IF
  addToken l (.ok astIf) Tok.NUM

/-- All source and destination states of `tr` are below `c` (the freshness
precondition for the counter value). -/
def transBelow (tr : TransMap) (c : Nat) : Prop :=
  ∀ e ∈ tr, e.1.1 < c ∧ ∀ d ∈ e.2, d < c

/-- The DFA states a scan visits after the initial one (empty when the very
first character already has no transition). -/
def scanTail (tr : TransMap) (fuel : Nat) (Z : Finset Nat) :
    List Char → List (Finset Nat)
  | [] => []
  | ch :: rest =>
      let S' := stepDfa tr fuel Z ch
      if S' = ∅ then [] else dfaIter tr fuel S' rest

/-- Every state id stored in the lexer (starts, accepts, transition sources
and destinations of the per-pattern NFAs) is below the builder counter; this
holds for every lexer built through `add_token`, whose ids all come from the
monotone counter. -/
def lexerWF {T : Type} (l : Lexer T) : Prop :=
  ∀ n ∈ l.nfas, n.startState < l.nfaBuilder ∧
    (∀ a ∈ n.acceptStates, a < l.nfaBuilder) ∧
    ∀ e ∈ n.trans, e.1.1 < l.nfaBuilder ∧ ∀ d ∈ e.2, d < l.nfaBuilder

instance {T : Type} (l : Lexer T) : Decidable (lexerWF l) :=
  inferInstanceAs (Decidable (∀ n ∈ l.nfas,
    n.startState < l.nfaBuilder ∧
    (∀ a ∈ n.acceptStates, a < l.nfaBuilder) ∧
    ∀ e ∈ n.trans, e.1.1 < l.nfaBuilder ∧ ∀ d ∈ e.2, d < l.nfaBuilder))

theorem lexerIf_eq : lexerIf = .ok lexerIfV := by decide

theorem lexerIfWhile_eq : lexerIfWhile = .ok lexerIfWhileV := by decide

/-- C1: with `"if"` → IF and `"while"` → WHILE registered, `lex "ifwhile"`
returns the single token `[IF]`: the scanning loop records only the most
recent accepting state and pushes at most one token after the loop, so the
full ordered sequence `[IF, WHILE]` demanded by the spec is not produced. -/
theorem lex_ifwhile_truncated_single_token :
    lexerIfWhile = .ok lexerIfWhileV ∧
    lex lexerIfWhileV ['i', 'f', 'w', 'h', 'i', 'l', 'e'] =
      .ok ([Tok.IF], ⟨24, lexerIfWhileV.nfas, lexerIfWhileV.tokMap⟩) ∧
    ([Tok.IF] : List Tok) ≠ [Tok.IF, Tok.WHILE] := by
  exact ⟨by decide, by decide, by decide⟩

/-- C2: with only `"if"` registered, `lex "xy"` returns `Ok []` — the
scanner has no error path at all (`lex` returns a plain `Vec<T>` in the
source), so instead of failing with `UnrecognizedInputError(0)` it silently
returns the empty token sequence. -/
theorem lex_unrecognized_input_silent_empty :
    lexerIf = .ok lexerIfV ∧
    lex lexerIfV ['x', 'y'] =
      .ok ([], ⟨8, lexerIfV.nfas, lexerIfV.tokMap⟩) := by
  exact ⟨by decide, by decide⟩

/-- C3: when the external Pattern Parser rejects a pattern, `add_token` hits
`panic!("Error in regex: ..")` — a process-fatal abort — instead of
returning a recoverable `PatternSyntaxError` result. -/
theorem addToken_parse_error_fatal {T : Type} (l : Lexer T) (e : ParseError)
    (tok : T) :
    addToken l (.error e) tok =
      .error ⟨"Error in regex: " ++ e.message⟩ := by
  rfl

/-- C5: with no registered patterns, `lex` returns the empty token sequence
for every input, without error and without building or walking a DFA (the
early `return Vec::new()` fires before `merge_nfas` and `into_dfa`). -/
theorem lex_empty_registration {T : Type} (c : Nat) (tk : List (Nat × T))
    (s : List Char) :
    lex (⟨c, [], tk⟩ : Lexer T) s = .ok ([], ⟨c, [], tk⟩) := by
  rfl

theorem mergeNfas_counter (nfas : List NFA) (c : Nat) (n : NFA) (c' : Nat)
    (h : mergeNfas nfas c = .ok (n, c')) : c' = c + 1 := by
  unfold mergeNfas getId at h
  cases hm : mergeCore nfas [] ∅ [] with
  | error p => rw [hm] at h; cases h
  | ok v =>
      rw [hm] at h
      obtain ⟨tr, ss, accs⟩ := v
      simp only [Except.bind] at h
      cases h
      rfl

/-- C10: `lex` never modifies the registered pattern set — the stored
per-pattern NFAs and the accept-state → token map are returned unchanged;
only the builder's state-id counter advances (by the single fresh id that
`merge_nfas` allocates, when there are patterns at all). -/
theorem lex_frame {T : Type} (l : Lexer T) (s : List Char) (toks : List T)
    (l' : Lexer T) (h : lex l s = .ok (toks, l')) :
    l'.nfas = l.nfas ∧ l'.tokMap = l.tokMap ∧
      (l'.nfaBuilder = l.nfaBuilder + 1 ∨ l'.nfaBuilder = l.nfaBuilder) := by
  unfold lex at h
  by_cases hn : l.nfas.length > 0
  · rw [if_pos hn] at h
    cases hm : mergeNfas l.nfas l.nfaBuilder with
    | error p => rw [hm] at h; cases h
    | ok v =>
        rw [hm] at h
        obtain ⟨n, c⟩ := v
        have hc : c = l.nfaBuilder + 1 := mergeNfas_counter _ _ _ _ hm
        cases h
        exact ⟨rfl, rfl, Or.inl hc⟩
  · rw [if_neg hn] at h
    cases h
    exact ⟨rfl, rfl, Or.inr rfl⟩

theorem lookupT_nil (k : Nat × Transition) : lookupT [] k = none := rfl

theorem lookupT_cons (e : (Nat × Transition) × Finset Nat) (m : TransMap)
    (k : Nat × Transition) :
    lookupT (e :: m) k = if e.1 = k then some e.2 else lookupT m k := by
  by_cases h : e.1 = k
  · simp [lookupT, List.find?_cons_of_pos, h]
  · simp [lookupT, List.find?_cons_of_neg, h]

theorem lookupT_eq_none (m : TransMap) (k : Nat × Transition) :
    lookupT m k = none ↔ ∀ e ∈ m, ¬ e.1 = k := by
  simp [lookupT, List.find?_eq_none]

theorem epsStep_nil (S : Finset Nat) : epsStep [] S = S := by
  ext x
  simp [epsStep, lookupT]

theorem epsClosure_nil (fuel : Nat) (S : Finset Nat) :
    epsClosure [] fuel S = S := by
  cases fuel with
  | zero => rfl
  | succ n => simp [epsClosure, epsStep_nil]

theorem moveSet_nil (S : Finset Nat) (ch : Char) : moveSet [] S ch = ∅ := by
  ext x
  simp [moveSet, lookupT]

theorem stepDfa_nil (fuel : Nat) (S : Finset Nat) (ch : Char) :
    stepDfa [] fuel S ch = ∅ := by
  simp [stepDfa, moveSet_nil, epsClosure_nil]

theorem foldl_const_empty (s : List Char) :
    s.foldl (fun (_ : Finset Nat) (_ : Char) => (∅ : Finset Nat)) ∅ = ∅ := by
  induction s with
  | nil => rfl
  | cons ch rest ih => simpa using ih

theorem exbind_ok {ε α β : Type} (a : α) (f : α → Except ε β) :
    (Except.ok a >>= f) = f a := rfl

theorem exbind_error {ε α β : Type} (e : ε) (f : α → Except ε β) :
    ((Except.error e : Except ε α) >>= f) = Except.error e := rfl

theorem mem_insertOv (m : TransMap) (k : Nat × Transition) (v : Finset Nat)
    (e : (Nat × Transition) × Finset Nat) (he : e ∈ insertOv m k v) :
    e = (k, v) ∨ e ∈ m := by
  rcases List.mem_cons.1 he with h | h
  · exact Or.inl h
  · exact Or.inr (List.mem_of_mem_filter h)

theorem keysNodup_insertOv (m : TransMap) (k : Nat × Transition)
    (v : Finset Nat) (h : keysNodup m) : keysNodup (insertOv m k v) := by
  unfold keysNodup insertOv
  simp only [List.map_cons, List.nodup_cons]
  constructor
  · intro hk
    obtain ⟨e, hem, hek⟩ := List.mem_map.1 hk
    have := List.of_mem_filter hem
    simp at this
    exact this hek
  · exact ((List.filter_sublist _).map _).nodup h

theorem copyInto_ok (src : TransMap) : ∀ dst : TransMap,
    (∀ e ∈ src, lookupT dst e.1 = none) → keysNodup src → keysNodup dst →
    ∃ out, copyInto dst src = .ok out ∧ keysNodup out ∧
      ∀ e, e ∈ out ↔ e ∈ dst ∨ e ∈ src := by
  induction src with
  | nil =>
      intro dst _ _ hd
      exact ⟨dst, rfl, hd, by simp [copyInto]⟩
  | cons e rest ih =>
      intro dst hdisj hs hd
      have he : lookupT dst e.1 = none := hdisj e (List.mem_cons_self e rest)
      have hstep : copyInto dst (e :: rest) = copyInto (e :: dst) rest := by
        simp [copyInto, insertChecked, he, exbind_ok]
      have hd' : keysNodup (e :: dst) := by
        unfold keysNodup at hd ⊢
        simp only [List.map_cons, List.nodup_cons]
        refine ⟨?_, hd⟩
        intro hk
        obtain ⟨e', he', hk⟩ := List.mem_map.1 hk
        exact (lookupT_eq_none dst e.1).1 he e' he' hk
      have hs' : keysNodup rest := by
        unfold keysNodup at hs ⊢
        exact (List.nodup_cons.1 hs).2
      have hdisj' : ∀ e' ∈ rest, lookupT (e :: dst) e'.1 = none := by
        intro e' he'
        rw [lookupT_cons]
        have hne : ¬ e.1 = e'.1 := by
          intro hkk
          apply (List.nodup_cons.1 hs).1
          show e.1 ∈ List.map (fun e => e.1) rest
          rw [hkk]
          exact List.mem_map.2 ⟨e', he', rfl⟩
        rw [if_neg hne]
        exact hdisj e' (List.mem_cons_of_mem _ he')
      obtain ⟨out, hout, hnd, hmem⟩ := ih (e :: dst) hdisj' hs' hd'
      refine ⟨out, by rw [hstep]; exact hout, hnd, ?_⟩
      intro e''
      rw [hmem e'']
      simp [List.mem_cons]
      tauto

theorem chainBounded_le : ∀ (v : List NFA) (lo hi : Nat),
    chainBounded v lo hi → lo ≤ hi := by
  intro v
  induction v with
  | nil => intro lo hi h; exact h.ge
  | cons n rest ih =>
      intro lo hi h
      obtain ⟨mid, hlt, _, _, _, hchain⟩ := h
      exact le_trans (le_of_lt hlt) (ih mid hi hchain)

theorem transBounded_insertOv (m : TransMap) (k : Nat × Transition)
    (v : Finset Nat) (lo hi : Nat) (hm : transBounded m lo hi)
    (hk1 : lo ≤ k.1) (hk2 : k.1 < hi) (hv : ∀ d ∈ v, d < hi) :
    transBounded (insertOv m k v) lo hi := by
  intro e he
  rcases mem_insertOv m k v e he with h | h
  · subst h; exact ⟨hk1, hk2, hv⟩
  · exact hm e h

/-- C7 counterexample: compiling the empty `Sequence` (at counter 0) yields
a fragment whose transition map is empty — there is no epsilon transition
from the start state to the accept state; the single fresh state 0 is both
start and accept. -/
theorem seq_empty_no_epsilon_edge :
    regexToNfa (RegEx.Sequence []) 0 = .ok (⟨0, [0], []⟩, 1) ∧
    lookupT (NFA.mk 0 [0] []).trans (0, Transition.Epsilon) = none := by
  exact ⟨by decide, by decide⟩

/-- C7 (amended): compiling an empty `Sequence` does not crash: the loop of
`construct_sequence_nfa` never runs, so `end` stays equal to `init_start`
and the fragment is a single fresh state that is both start and accept, with
an empty transition relation — and that fragment matches exactly the empty
string. -/
theorem seq_empty_fragment_matches_empty (c : Nat) :
    regexToNfa (RegEx.Sequence []) c = .ok (⟨c, [c], []⟩, c + 1) ∧
    ∀ s : List Char, (nfaAccepts ⟨c, [c], []⟩ s = true ↔ s = []) := by
  constructor
  · rfl
  · intro s
    cases s with
    | nil => simp [nfaAccepts, epsClosure_nil]
    | cons ch rest =>
        simp [nfaAccepts, epsClosure_nil, stepDfa_nil, foldl_const_empty]

theorem lex_frame_witness :
    (⟨8, lexerIfV.nfas, lexerIfV.tokMap⟩ : Lexer Tok).nfas = lexerIfV.nfas ∧
    (⟨8, lexerIfV.nfas, lexerIfV.tokMap⟩ : Lexer Tok).tokMap =
      lexerIfV.tokMap ∧
    ((⟨8, lexerIfV.nfas, lexerIfV.tokMap⟩ : Lexer Tok).nfaBuilder =
      lexerIfV.nfaBuilder + 1 ∨
     (⟨8, lexerIfV.nfas, lexerIfV.tokMap⟩ : Lexer Tok).nfaBuilder =
      lexerIfV.nfaBuilder) :=
  lex_frame lexerIfV ['i', 'f'] [Tok.IF]
    ⟨8, lexerIfV.nfas, lexerIfV.tokMap⟩ (by decide)

theorem seqLoop_wf : ∀ (v : List NFA) (lo0 lo mid : Nat),
    chainBounded v lo mid → lo0 ≤ lo → lo ≤ mid →
    ∀ (endS c : Nat) (m : TransMap),
    mid ≤ endS → endS < c →
    (∀ e ∈ m, lo0 ≤ e.1.1 ∧ (e.1.1 < lo ∨ mid ≤ e.1.1) ∧ e.1.1 < c ∧
      ∀ d ∈ e.2, d < c) →
    keysNodup m →
    ∃ endS' c' m', seqLoop v endS c m = .ok (endS', c', m') ∧
      c ≤ c' ∧ mid ≤ endS' ∧ endS' < c' ∧
      (∀ e ∈ m', lo0 ≤ e.1.1 ∧ e.1.1 < c' ∧ ∀ d ∈ e.2, d < c') ∧
      keysNodup m' := by
  intro v
  induction v with
  | nil =>
      intro lo0 lo mid hch hlo0 hlomid endS c m hmid hend hm hnd
      refine ⟨endS, c, m, rfl, le_refl c, hmid, hend, ?_, hnd⟩
      intro e he
      obtain ⟨h1, _, h3, h4⟩ := hm e he
      exact ⟨h1, h3, h4⟩
  | cons n rest ih =>
      intro lo0 lo mid hch hlo0 hlomid endS c m hmid hend hm hnd
      obtain ⟨mid1, hltmid1, hb, hndn, ⟨a, ha⟩, hch'⟩ := hch
      have hmid1mid : mid1 ≤ mid := chainBounded_le rest mid1 mid hch'
      obtain ⟨hbs1, hbs2, hbacc, hbt⟩ := hb
      have hdisj : ∀ e ∈ n.trans, lookupT m e.1 = none := by
        intro e he
        rw [lookupT_eq_none]
        intro e' he' hk
        obtain ⟨hsrc1, hsrc2, _⟩ := hbt e he
        obtain ⟨_, hor, _, _⟩ := hm e' he'
        have hfst : e'.1.1 = e.1.1 := by rw [hk]
        rcases hor with hlt | hge
        · omega
        · omega
      obtain ⟨out, hout, hndo, hmemo⟩ := copyInto_ok n.trans m hdisj hndn hnd
      have ha' : a ∈ n.acceptStates := by rw [ha]; exact List.mem_cons_self a []
      obtain ⟨haccl, haccu⟩ := hbacc a ha'
      have hm2 : ∀ e ∈ insertOv
          (insertOv out (endS, Transition.Epsilon) {n.startState})
          (a, Transition.Epsilon) {c},
          lo0 ≤ e.1.1 ∧ (e.1.1 < mid1 ∨ mid ≤ e.1.1) ∧ e.1.1 < c + 1 ∧
            ∀ d ∈ e.2, d < c + 1 := by
        intro e he
        rcases mem_insertOv _ _ _ e he with h | h
        · subst h
          show lo0 ≤ a ∧ (a < mid1 ∨ mid ≤ a) ∧ a < c + 1 ∧
            ∀ d ∈ ({c} : Finset Nat), d < c + 1
          refine ⟨by omega, Or.inl (by omega), by omega, ?_⟩
          intro d hd
          simp at hd
          omega
        · rcases mem_insertOv _ _ _ e h with h2 | h2
          · subst h2
            show lo0 ≤ endS ∧ (endS < mid1 ∨ mid ≤ endS) ∧ endS < c + 1 ∧
              ∀ d ∈ ({n.startState} : Finset Nat), d < c + 1
            refine ⟨by omega, Or.inr (by omega), by omega, ?_⟩
            intro d hd
            simp at hd
            omega
          · rcases (hmemo e).1 h2 with h3 | h3
            · obtain ⟨x1, x2, x3, x4⟩ := hm e h3
              refine ⟨x1, by omega, by omega, ?_⟩
              intro d hd
              have := x4 d hd
              omega
            · obtain ⟨x1, x2, x3⟩ := hbt e h3
              refine ⟨by omega, Or.inl x2, by omega, ?_⟩
              intro d hd
              have := x3 d hd
              omega
      have hnd2 : keysNodup (insertOv
          (insertOv out (endS, Transition.Epsilon) {n.startState})
          (a, Transition.Epsilon) {c}) :=
        keysNodup_insertOv _ _ _ (keysNodup_insertOv _ _ _ hndo)
      obtain ⟨endS', c', m', hloop, hc', hmid', hend', hm', hnd'⟩ :=
        ih lo0 mid1 mid hch' (by omega) hmid1mid c (c + 1) _
          (by omega) (by omega) hm2 hnd2
      refine ⟨endS', c', m', ?_, by omega, hmid', hend', hm', hnd'⟩
      show seqLoop (n :: rest) endS c m = _
      simp only [seqLoop, getId, hout, ha, exbind_ok]
      exact hloop

mutual

theorem regexToNfa_wf (r : RegEx) (c : Nat) :
    ∃ n c', regexToNfa r c = .ok (n, c') ∧ c < c' ∧ nfaBounded n c c' ∧
      keysNodup n.trans ∧ ∃ a, n.acceptStates = [a] := by
  cases r with
  | Terminal ch =>
      refine ⟨⟨c, [c + 1], [((c, Transition.Input ch), {c + 1})]⟩, c + 2,
        rfl, by omega, ?_, ?_, ⟨c + 1, rfl⟩⟩
      · refine ⟨le_refl c, by show c < c + 2; omega, ?_, ?_⟩
        · intro a ha
          simp at ha
          omega
        · intro e he
          simp at he
          subst he
          refine ⟨le_refl c, by show c < c + 2; omega, ?_⟩
          intro d hd
          simp at hd
          omega
      · unfold keysNodup
        simp
  | Or r1 r2 =>
      obtain ⟨n1, c1, h1, hc1, hb1, hnd1, a1, ha1⟩ := regexToNfa_wf r1 c
      obtain ⟨n2, c2, h2, hc2, hb2, hnd2, a2, ha2⟩ := regexToNfa_wf r2 c1
      obtain ⟨hbs11, hbs12, hbacc1, hbt1⟩ := hb1
      obtain ⟨hbs21, hbs22, hbacc2, hbt2⟩ := hb2
      have hdisj : ∀ e ∈ n2.trans, lookupT n1.trans e.1 = none := by
        intro e he
        rw [lookupT_eq_none]
        intro e' he' hk
        obtain ⟨x1, x2, _⟩ := hbt1 e' he'
        obtain ⟨y1, y2, _⟩ := hbt2 e he
        have hfst : e'.1.1 = e.1.1 := by rw [hk]
        omega
      obtain ⟨out, hout, hndo, hmemo⟩ := copyInto_ok n2.trans n1.trans hdisj hnd2 hnd1
      obtain ⟨ha1l, ha1u⟩ := hbacc1 a1 (by rw [ha1]; exact List.mem_cons_self a1 [])
      obtain ⟨ha2l, ha2u⟩ := hbacc2 a2 (by rw [ha2]; exact List.mem_cons_self a2 [])
      refine ⟨⟨c2, [c2 + 1],
        insertOv (insertOv (insertOv out (c2, Transition.Epsilon)
          {n1.startState, n2.startState})
          (a1, Transition.Epsilon) {c2 + 1})
          (a2, Transition.Epsilon) {c2 + 1}⟩, c2 + 2, ?_, by omega, ?_, ?_,
        ⟨c2 + 1, rfl⟩⟩
      · simp only [regexToNfa, h1, h2, exbind_ok]
        simp only [constructOrNfa, getId, hout, ha1, ha2, exbind_ok]
      · refine ⟨by show c ≤ c2; omega, by show c2 < c2 + 2; omega, ?_, ?_⟩
        · intro a ha
          simp at ha
          omega
        · have hto : transBounded out c (c2 + 2) := by
            intro e he
            rcases (hmemo e).1 he with h | h
            · obtain ⟨x1, x2, x3⟩ := hbt1 e h
              exact ⟨x1, by omega, fun d hd => by have := x3 d hd; omega⟩
            · obtain ⟨x1, x2, x3⟩ := hbt2 e h
              exact ⟨by omega, by omega, fun d hd => by have := x3 d hd; omega⟩
          refine transBounded_insertOv _ _ _ _ _
            (transBounded_insertOv _ _ _ _ _
              (transBounded_insertOv _ _ _ _ _ hto
                (by show c ≤ c2; omega) (by show c2 < c2 + 2; omega) ?_)
              (by show c ≤ a1; omega) (by show a1 < c2 + 2; omega) ?_)
            (by show c ≤ a2; omega) (by show a2 < c2 + 2; omega) ?_
          · intro d hd
            simp at hd
            rcases hd with h | h <;> omega
          · intro d hd
            simp at hd
            omega
          · intro d hd
            simp at hd
            omega
      · exact keysNodup_insertOv _ _ _
          (keysNodup_insertOv _ _ _ (keysNodup_insertOv _ _ _ hndo))
  | Sequence v =>
      obtain ⟨ns, c1, hns, hc1, hchain⟩ := regexListToNfa_wf v c
      obtain ⟨endS', c', m', hloop, hcc', hmid', hend', hm', hnd'⟩ :=
        seqLoop_wf ns c c c1 hchain (le_refl c) hc1 c1 (c1 + 1) []
          (le_refl c1) (by omega) (by intro e he; cases he)
          (by unfold keysNodup; simp)
      refine ⟨⟨c1, [endS'], m'⟩, c', ?_, by omega, ?_, hnd', ⟨endS', rfl⟩⟩
      · simp only [regexToNfa, hns, exbind_ok]
        simp only [constructSequenceNfa, getId, hloop, exbind_ok]
      · refine ⟨by show c ≤ c1; omega, by show c1 < c'; omega, ?_, ?_⟩
        · intro a ha
          simp at ha
          omega
        · intro e he
          obtain ⟨x1, x2, x3⟩ := hm' e he
          exact ⟨x1, x2, x3⟩
  | Repetition r =>
      obtain ⟨n, c1, h1, hc1, hb, hnd, a, ha⟩ := regexToNfa_wf r (c + 1)
      obtain ⟨hbs1, hbs2, hbacc, hbt⟩ := hb
      obtain ⟨hal, hau⟩ := hbacc a (by rw [ha]; exact List.mem_cons_self a [])
      refine ⟨⟨c, [c1],
        insertOv (insertOv n.trans (c, Transition.Epsilon) {n.startState, c1})
          (a, Transition.Epsilon) {n.startState, c1}⟩, c1 + 1, ?_, by omega,
        ?_, ?_, ⟨c1, rfl⟩⟩
      · simp only [regexToNfa, getId, h1, exbind_ok, ha]
      · refine ⟨le_refl c, by show c < c1 + 1; omega, ?_, ?_⟩
        · intro x hx
          simp at hx
          omega
        · have hbase : transBounded n.trans c (c1 + 1) := by
            intro e he
            obtain ⟨x1, x2, x3⟩ := hbt e he
            exact ⟨by omega, by omega, fun d hd => by have := x3 d hd; omega⟩
          refine transBounded_insertOv _ _ _ _ _
            (transBounded_insertOv _ _ _ _ _ hbase (le_refl c)
              (by show c < c1 + 1; omega) ?_)
            (by show c ≤ a; omega) (by show a < c1 + 1; omega) ?_
          · intro d hd
            simp at hd
            rcases hd with h | h <;> omega
          · intro d hd
            simp at hd
            rcases hd with h | h <;> omega
      · exact keysNodup_insertOv _ _ _ (keysNodup_insertOv _ _ _ hnd)

theorem regexListToNfa_wf (v : List RegEx) (c : Nat) :
    ∃ ns c', regexListToNfa v c = .ok (ns, c') ∧ c ≤ c' ∧
      chainBounded ns c c' := by
  cases v with
  | nil => exact ⟨[], c, rfl, le_refl c, rfl⟩
  | cons r rs =>
      obtain ⟨n, c1, h1, hc1, hb, hnd, ha⟩ := regexToNfa_wf r c
      obtain ⟨ns, c2, h2, hc2, hchain⟩ := regexListToNfa_wf rs c1
      refine ⟨n :: ns, c2, ?_, by omega, ⟨c1, hc1, hb, hnd, ha, hchain⟩⟩
      simp only [regexListToNfa, h1, h2, exbind_ok]

end

/-- C6: for every regex AST, compilation succeeds (none of the embedded
`assert_eq!(accept.len(), 1)` checks — present in every recursive case and
re-checked in `add_token` after construction — ever fires) and the produced
fragment has exactly one accept state. -/
theorem regexToNfa_single_accept (r : RegEx) (c : Nat) :
    ∃ n c', regexToNfa r c = .ok (n, c') ∧ n.acceptStates.length = 1 := by
  obtain ⟨n, c', h, _, _, _, a, ha⟩ := regexToNfa_wf r c
  exact ⟨n, c', h, by rw [ha]; rfl⟩

theorem lookupT_ne_none_of_mem (m : TransMap)
    (e : (Nat × Transition) × Finset Nat) (he : e ∈ m) :
    ¬ lookupT m e.1 = none := by
  intro hnone
  exact (lookupT_eq_none m e.1).1 hnone e he rfl

theorem lookupT_none_mono (m : TransMap) (x : (Nat × Transition) × Finset Nat)
    (k : Nat × Transition) (h : lookupT (x :: m) k = none) :
    lookupT m k = none := by
  rw [lookupT_cons] at h
  by_cases hx : x.1 = k
  · rw [if_pos hx] at h
    cases h
  · rwa [if_neg hx] at h

theorem copyInto_subset : ∀ (src dst out : TransMap),
    copyInto dst src = .ok out →
    (∀ e ∈ dst, e ∈ out) ∧ (∀ e ∈ src, e ∈ out) := by
  intro src
  induction src with
  | nil =>
      intro dst out h
      simp only [copyInto] at h
      cases h
      exact ⟨fun e he => he, fun e he => by cases he⟩
  | cons e rest ih =>
      intro dst out h
      simp only [copyInto, insertChecked] at h
      cases hl : lookupT dst e.1 with
      | some v =>
          rw [hl] at h
          simp only [exbind_error] at h
          cases h
      | none =>
          rw [hl] at h
          simp only [exbind_ok] at h
          obtain ⟨h1, h2⟩ := ih (e :: dst) out h
          exact ⟨fun e' he' => h1 e' (List.mem_cons_of_mem _ he'),
            fun e' he' => by
              rcases List.mem_cons.1 he' with hh | hh
              · subst hh
                exact h1 e' (List.mem_cons_self e' dst)
              · exact h2 e' hh⟩

theorem copyInto_ok_src_disjoint : ∀ (src dst out : TransMap),
    copyInto dst src = .ok out → ∀ e ∈ src, lookupT dst e.1 = none := by
  intro src
  induction src with
  | nil =>
      intro dst out _ e he
      cases he
  | cons e rest ih =>
      intro dst out h e' he'
      simp only [copyInto, insertChecked] at h
      cases hl : lookupT dst e.1 with
      | some v =>
          rw [hl] at h
          simp only [exbind_error] at h
          cases h
      | none =>
          rw [hl] at h
          simp only [exbind_ok] at h
          rcases List.mem_cons.1 he' with hh | hh
          · subst hh
            exact hl
          · exact lookupT_none_mono dst e e'.1 (ih (e :: dst) out h e' hh)

theorem lookupT_insertOv_self (m : TransMap) (k : Nat × Transition)
    (v : Finset Nat) : lookupT (insertOv m k v) k = some v := by
  unfold insertOv
  rw [lookupT_cons, if_pos rfl]

theorem mergeCore_ok : ∀ (nfas : List NFA) (tr : TransMap) (ss : Finset Nat)
    (accs : List Nat),
    (∀ n ∈ nfas, keysNodup n.trans ∧ n.acceptStates.length = 1) →
    List.Pairwise transDisjoint nfas →
    keysNodup tr →
    (∀ n ∈ nfas, ∀ e ∈ n.trans, lookupT tr e.1 = none) →
    ∃ tr' ss' accs', mergeCore nfas tr ss accs = .ok (tr', ss', accs') ∧
      keysNodup tr' ∧
      (∀ x, x ∈ ss' ↔ x ∈ ss ∨ ∃ m ∈ nfas, x = m.startState) ∧
      (∀ b, b ∈ accs' ↔ b ∈ accs ∨ ∃ m ∈ nfas, b ∈ m.acceptStates) := by
  intro nfas
  induction nfas with
  | nil =>
      intro tr ss accs _ _ hnd _
      exact ⟨tr, ss, accs, rfl, hnd, by simp, by simp⟩
  | cons n rest ih =>
      intro tr ss accs hfr hpw hnd hdisj
      obtain ⟨hndn, hlen⟩ := hfr n (List.mem_cons_self n rest)
      obtain ⟨a, ha⟩ := List.length_eq_one.1 hlen
      obtain ⟨out, hout, hndo, hmemo⟩ :=
        copyInto_ok n.trans tr (hdisj n (List.mem_cons_self n rest)) hndn hnd
      have hdisj' : ∀ m ∈ rest, ∀ e ∈ m.trans, lookupT out e.1 = none := by
        intro m hm e he
        rw [lookupT_eq_none]
        intro e' he' hk
        rcases (hmemo e').1 he' with h | h
        · exact (lookupT_eq_none tr e.1).1
            (hdisj m (List.mem_cons_of_mem _ hm) e he) e' h hk
        · exact (List.pairwise_cons.1 hpw).1 m hm e' h e he hk
      obtain ⟨tr', ss', accs', hmc, hnd', hss, haccs⟩ :=
        ih out (insert n.startState ss) (accs ++ [a])
          (fun m hm => hfr m (List.mem_cons_of_mem _ hm))
          (List.pairwise_cons.1 hpw).2 hndo hdisj'
      refine ⟨tr', ss', accs', ?_, hnd', ?_, ?_⟩
      · simp only [mergeCore, hout, exbind_ok, ha]
        exact hmc
      · intro x
        rw [hss x]
        simp only [Finset.mem_insert, List.mem_cons]
        constructor
        · rintro ((h | h) | ⟨m, hm, hx⟩)
          · exact Or.inr ⟨n, Or.inl rfl, h⟩
          · exact Or.inl h
          · exact Or.inr ⟨m, Or.inr hm, hx⟩
        · rintro (h | ⟨m, hm | hm, hx⟩)
          · exact Or.inl (Or.inr h)
          · subst hm
            exact Or.inl (Or.inl hx)
          · exact Or.inr ⟨m, hm, hx⟩
      · intro b
        rw [haccs b]
        constructor
        · rintro (h | ⟨m, hm, hb⟩)
          · rcases List.mem_append.1 h with h1 | h1
            · exact Or.inl h1
            · refine Or.inr ⟨n, List.mem_cons_self n rest, ?_⟩
              rw [ha]
              exact h1
          · exact Or.inr ⟨m, List.mem_cons_of_mem _ hm, hb⟩
        · rintro (h | ⟨m, hm, hb⟩)
          · exact Or.inl (List.mem_append.2 (Or.inl h))
          · rcases List.mem_cons.1 hm with hh | hh
            · subst hh
              rw [ha] at hb
              exact Or.inl (List.mem_append.2 (Or.inr hb))
            · exact Or.inr ⟨m, hh, hb⟩

theorem mergeCore_ok_pairwise : ∀ (nfas : List NFA) (tr : TransMap)
    (ss : Finset Nat) (accs : List Nat) (res),
    mergeCore nfas tr ss accs = .ok res →
    (∀ m ∈ nfas, ∀ e ∈ m.trans, lookupT tr e.1 = none) ∧
    List.Pairwise transDisjoint nfas := by
  intro nfas
  induction nfas with
  | nil =>
      intro tr ss accs res _
      refine ⟨?_, List.Pairwise.nil⟩
      intro m hm
      cases hm
  | cons n rest ih =>
      intro tr ss accs res h
      simp only [mergeCore] at h
      cases hco : copyInto tr n.trans with
      | error p =>
          rw [hco] at h
          simp only [exbind_error] at h
          cases h
      | ok tr1 =>
          rw [hco] at h
          simp only [exbind_ok] at h
          cases hacc : n.acceptStates with
          | nil =>
              rw [hacc] at h
              cases h
          | cons a t =>
              cases t with
              | nil =>
                  rw [hacc] at h
                  obtain ⟨hdisj', hpw'⟩ := ih tr1 _ _ res h
                  have hsub := copyInto_subset n.trans tr tr1 hco
                  refine ⟨?_, List.pairwise_cons.2 ⟨?_, hpw'⟩⟩
                  · intro m hm e he
                    rcases List.mem_cons.1 hm with hh | hh
                    · subst hh
                      exact copyInto_ok_src_disjoint m.trans tr tr1 hco e he
                    · rw [lookupT_eq_none]
                      intro e' he' hk
                      exact (lookupT_eq_none tr1 e.1).1 (hdisj' m hh e he) e'
                        (hsub.1 e' he') hk
                  · intro m hm e1 he1 e2 he2 hk
                    exact (lookupT_eq_none tr1 e2.1).1 (hdisj' m hm e2 he2) e1
                      (hsub.2 e1 he1) hk
              | cons b t2 =>
                  rw [hacc] at h
                  cases h

/-- C8: merging a list of single-accept fragments allocates one fresh global
start state (the current counter value) carrying an epsilon transition to
every fragment's start state, and collects the union of the fragments'
accept states; and whenever `merge_nfas` returns at all (rather than hitting
the fatal `panic!("Duplicate states")` of the checked `entry` insert), the
fragments' transition keys were pairwise collision-free — i.e. any
cross-fragment key collision aborts the construction instead of being
silently overwritten. -/
theorem mergeNfas_spec :
    (∀ (nfas : List NFA) (c : Nat),
      (∀ n ∈ nfas, keysNodup n.trans ∧ n.acceptStates.length = 1) →
      List.Pairwise transDisjoint nfas →
      ∃ n, mergeNfas nfas c = .ok (n, c + 1) ∧ n.startState = c ∧
        (∃ ss, lookupT n.trans (c, Transition.Epsilon) = some ss ∧
          ∀ x, x ∈ ss ↔ ∃ m ∈ nfas, x = m.startState) ∧
        (∀ b, b ∈ n.acceptStates ↔ ∃ m ∈ nfas, b ∈ m.acceptStates)) ∧
    (∀ (nfas : List NFA) (c : Nat) (n : NFA) (c' : Nat),
      mergeNfas nfas c = .ok (n, c') →
      List.Pairwise transDisjoint nfas) := by
  constructor
  · intro nfas c hfr hpw
    obtain ⟨tr', ss', accs', hmc, _, hss, haccs⟩ :=
      mergeCore_ok nfas [] ∅ [] hfr hpw (by unfold keysNodup; simp)
        (by intro n _ e _; rfl)
    refine ⟨⟨c, accs', insertOv tr' (c, Transition.Epsilon) ss'⟩, ?_, rfl,
      ⟨ss', ?_, ?_⟩, ?_⟩
    · simp only [mergeNfas, getId, hmc, exbind_ok]
    · exact lookupT_insertOv_self tr' (c, Transition.Epsilon) ss'
    · intro x
      rw [hss x]
      simp
    · intro b
      show b ∈ accs' ↔ _
      rw [haccs b]
      simp
  · intro nfas c n c' h
    simp only [mergeNfas, getId] at h
    cases hmc : mergeCore nfas [] ∅ [] with
    | error p =>
        rw [hmc] at h
        simp only [exbind_error] at h
        cases h
    | ok res =>
        exact (mergeCore_ok_pairwise nfas [] ∅ [] res hmc).2

theorem mergeNfas_spec_witness :
    ∃ n, mergeNfas [nfaIf, nfaWhile] 23 = .ok (n, 24) ∧ n.startState = 23 ∧
      (∃ ss, lookupT n.trans (23, Transition.Epsilon) = some ss ∧
        ∀ x, x ∈ ss ↔ ∃ m ∈ [nfaIf, nfaWhile], x = m.startState) ∧
      (∀ b, b ∈ n.acceptStates ↔ ∃ m ∈ [nfaIf, nfaWhile], b ∈ m.acceptStates) :=
  mergeNfas_spec.1 [nfaIf, nfaWhile] 23 (by decide) (by decide)

theorem find?_first {α : Type} (p : α → Bool) : ∀ (l : List α) (i : Nat)
    (hi : i < l.length), p (l.get ⟨i, hi⟩) = true →
    (∀ j (hj : j < i), p (l.get ⟨j, lt_trans hj hi⟩) = false) →
    l.find? p = some (l.get ⟨i, hi⟩) := by
  intro l
  induction l with
  | nil =>
      intro i hi
      cases hi
  | cons x xs ih =>
      intro i hi hp hb
      cases i with
      | zero => exact List.find?_cons_of_pos xs hp
      | succ k =>
          have hx : p x = false := hb 0 (Nat.succ_pos k)
          rw [List.find?_cons_of_neg xs (by rw [hx]; exact Bool.false_ne_true)]
          exact ih k (Nat.lt_of_succ_lt_succ hi) hp
            (fun j hj => hb (j + 1) (Nat.succ_lt_succ hj))

/-- C4: the token attached to an accepting DFA state (a subset of NFA
states) under the spec-modelled `into_dfa` resolution is the token of the
pattern with the lowest registration order among the accept states present:
with `accs` listing the per-pattern accept states in registration order
(as `merge_nfas` builds it), the first accept state found in the subset
wins.  And end-to-end, registering `"if"` → IF before a second pattern that
also matches `"if"`, scanning `"if"` yields `[IF]`. -/
theorem winningTok_lowest_registration :
    (∀ {T : Type} (accs : List Nat) (tokMap : List (Nat × T)) (S : Finset Nat)
      (i : Nat) (hi : i < accs.length), accs.get ⟨i, hi⟩ ∈ S →
      (∀ j (hj : j < i), accs.get ⟨j, lt_trans hj hi⟩ ∉ S) →
      winningTok accs tokMap S =
        (tokMap.find? (fun p => decide (p.1 = accs.get ⟨i, hi⟩))).map
          (fun p => p.2)) ∧
    (∃ l l', lexerIfDup = .ok l ∧ lex l ['i', 'f'] = .ok ([Tok.IF], l')) := by
  constructor
  · intro T accs tokMap S i hi hmem hbefore
    unfold winningTok
    rw [find?_first (fun a => decide (a ∈ S)) accs i hi (by simpa using hmem)
      (fun j hj => by simpa using hbefore j hj)]
    rfl
  · refine ⟨⟨14, [nfaIf,
      ⟨11, [13],
        [((10, Transition.Epsilon), {13}), ((12, Transition.Epsilon), {9}),
         ((9, Transition.Input 'f'), {10}), ((8, Transition.Epsilon), {12}),
         ((11, Transition.Epsilon), {7}), ((7, Transition.Input 'i'), {8})]⟩],
      [(13, Tok.NUM), (6, Tok.IF)]⟩,
      ⟨15, [nfaIf,
      ⟨11, [13],
        [((10, Transition.Epsilon), {13}), ((12, Transition.Epsilon), {9}),
         ((9, Transition.Input 'f'), {10}), ((8, Transition.Epsilon), {12}),
         ((11, Transition.Epsilon), {7}), ((7, Transition.Input 'i'), {8})]⟩],
      [(13, Tok.NUM), (6, Tok.IF)]⟩, by decide, by decide⟩

theorem winningTok_lowest_registration_witness :
    winningTok [6, 13] [(13, Tok.NUM), (6, Tok.IF)] ({6, 13} : Finset Nat) =
      some Tok.IF := by
  have h := winningTok_lowest_registration.1 [6, 13]
    [(13, Tok.NUM), (6, Tok.IF)] ({6, 13} : Finset Nat) 0 (by decide)
    (by decide) (fun j hj => absurd hj (Nat.not_lt_zero j))
  rw [h]
  decide

theorem copyInto_mem_rev : ∀ (src dst out : TransMap),
    copyInto dst src = .ok out → ∀ e ∈ out, e ∈ dst ∨ e ∈ src := by
  intro src
  induction src with
  | nil =>
      intro dst out h e he
      simp only [copyInto] at h
      cases h
      exact Or.inl he
  | cons x rest ih =>
      intro dst out h e he
      simp only [copyInto, insertChecked] at h
      cases hl : lookupT dst x.1 with
      | some v =>
          rw [hl] at h
          simp only [exbind_error] at h
          cases h
      | none =>
          rw [hl] at h
          simp only [exbind_ok] at h
          rcases ih (x :: dst) out h e he with h2 | h2
          · rcases List.mem_cons.1 h2 with h3 | h3
            · subst h3
              exact Or.inr (List.mem_cons_self e rest)
            · exact Or.inl h3
          · exact Or.inr (List.mem_cons_of_mem _ h2)

theorem mergeCore_mem : ∀ (nfas : List NFA) (tr0 : TransMap)
    (ss0 : Finset Nat) (accs0 : List Nat) (tr : TransMap) (ss : Finset Nat)
    (accs : List Nat), mergeCore nfas tr0 ss0 accs0 = .ok (tr, ss, accs) →
    (∀ e ∈ tr, e ∈ tr0 ∨ ∃ m ∈ nfas, e ∈ m.trans) ∧
    (∀ x ∈ ss, x ∈ ss0 ∨ ∃ m ∈ nfas, x = m.startState) ∧
    (∀ b ∈ accs, b ∈ accs0 ∨ ∃ m ∈ nfas, b ∈ m.acceptStates) ∧
    (∀ m ∈ nfas, m.startState ∈ ss) ∧ (∀ x ∈ ss0, x ∈ ss) := by
  intro nfas
  induction nfas with
  | nil =>
      intro tr0 ss0 accs0 tr ss accs h
      simp only [mergeCore] at h
      cases h
      refine ⟨fun e he => Or.inl he, fun x hx => Or.inl hx,
        fun b hb => Or.inl hb, ?_, fun x hx => hx⟩
      intro m hm
      cases hm
  | cons n rest ih =>
      intro tr0 ss0 accs0 tr ss accs h
      simp only [mergeCore] at h
      cases hco : copyInto tr0 n.trans with
      | error p =>
          rw [hco] at h
          simp only [exbind_error] at h
          cases h
      | ok tr1 =>
          rw [hco] at h
          simp only [exbind_ok] at h
          cases hacc : n.acceptStates with
          | nil =>
              rw [hacc] at h
              cases h
          | cons a t =>
              cases t with
              | cons b t2 =>
                  rw [hacc] at h
                  cases h
              | nil =>
                  rw [hacc] at h
                  obtain ⟨htr, hss, haccs, hstart, hmono⟩ := ih tr1 _ _ tr ss accs h
                  refine ⟨?_, ?_, ?_, ?_, ?_⟩
                  · intro e he
                    rcases htr e he with h1 | ⟨m, hm, hem⟩
                    · rcases copyInto_mem_rev n.trans tr0 tr1 hco e h1 with h2 | h2
                      · exact Or.inl h2
                      · exact Or.inr ⟨n, List.mem_cons_self n rest, h2⟩
                    · exact Or.inr ⟨m, List.mem_cons_of_mem _ hm, hem⟩
                  · intro x hx
                    rcases hss x hx with h1 | ⟨m, hm, hxm⟩
                    · rcases Finset.mem_insert.1 h1 with h2 | h2
                      · exact Or.inr ⟨n, List.mem_cons_self n rest, h2⟩
                      · exact Or.inl h2
                    · exact Or.inr ⟨m, List.mem_cons_of_mem _ hm, hxm⟩
                  · intro x hx
                    rcases haccs x hx with h1 | ⟨m, hm, hxm⟩
                    · rcases List.mem_append.1 h1 with h2 | h2
                      · exact Or.inl h2
                      · refine Or.inr ⟨n, List.mem_cons_self n rest, ?_⟩
                        rw [hacc]
                        exact h2
                    · exact Or.inr ⟨m, List.mem_cons_of_mem _ hm, hxm⟩
                  · intro m hm
                    rcases List.mem_cons.1 hm with h1 | h1
                    · subst h1
                      exact hmono m.startState (Finset.mem_insert_self _ _)
                    · exact hstart m h1
                  · intro x hx
                    exact hmono x (Finset.mem_insert_of_mem hx)

theorem lookupT_some_mem (m : TransMap) (k : Nat × Transition)
    (v : Finset Nat) (h : lookupT m k = some v) :
    ∃ e ∈ m, e.1 = k ∧ e.2 = v := by
  unfold lookupT at h
  cases hf : m.find? (fun e => decide (e.1 = k)) with
  | none =>
      rw [hf] at h
      cases h
  | some e =>
      rw [hf] at h
      have hm := List.mem_of_find?_eq_some hf
      have hp := List.find?_some hf
      simp at hp
      cases h
      exact ⟨e, hm, hp, rfl⟩

theorem getD_lookup_bound (tr : TransMap) (c : Nat) (htr : transBelow tr c)
    (k : Nat × Transition) : ∀ d ∈ (lookupT tr k).getD ∅, d < c := by
  intro d hd
  cases hl : lookupT tr k with
  | none =>
      rw [hl] at hd
      exact absurd hd (Finset.not_mem_empty d)
  | some v =>
      rw [hl] at hd
      obtain ⟨e, hem, _, hev⟩ := lookupT_some_mem tr k v hl
      refine (htr e hem).2 d ?_
      rw [hev]
      exact hd

theorem lookupT_fresh_agree (tr : TransMap) (ss : Finset Nat) (c cf : Nat)
    (hcf : c ≤ cf) (q : Nat) (lab : Transition) (hq : q < c) :
    lookupT (((cf, Transition.Epsilon), ss) :: tr) (q, lab) =
      lookupT tr (q, lab) := by
  rw [lookupT_cons, if_neg]
  intro h
  have hcfq : cf = q := congrArg Prod.fst h
  omega

theorem lookupT_fresh_input_none (tr : TransMap) (ss : Finset Nat) (c cf : Nat)
    (htr : transBelow tr c) (hcf : c ≤ cf) (ch : Char) :
    lookupT (((cf, Transition.Epsilon), ss) :: tr)
      (cf, Transition.Input ch) = none := by
  rw [lookupT_cons, if_neg]
  · rw [lookupT_eq_none]
    intro e he hk
    have h1 : e.1.1 = cf := congrArg Prod.fst hk
    have h2 := (htr e he).1
    omega
  · intro h
    have : Transition.Epsilon = Transition.Input ch := congrArg Prod.snd h
    cases this

theorem epsStep_supset (tr : TransMap) (S : Finset Nat) : S ⊆ epsStep tr S :=
  Finset.subset_union_left

theorem epsStep_agree (tr : TransMap) (ss : Finset Nat) (c cf : Nat)
    (hcf : c ≤ cf) (S : Finset Nat) (hS : ∀ x ∈ S, x < c) :
    epsStep (((cf, Transition.Epsilon), ss) :: tr) S = epsStep tr S := by
  unfold epsStep
  congr 1
  apply Finset.biUnion_congr rfl
  intro q hq
  rw [lookupT_fresh_agree tr ss c cf hcf q _ (hS q hq)]

theorem epsStep_bound (tr : TransMap) (c : Nat) (htr : transBelow tr c)
    (S : Finset Nat) (hS : ∀ x ∈ S, x < c) :
    ∀ x ∈ epsStep tr S, x < c := by
  intro x hx
  rw [epsStep, Finset.mem_union] at hx
  rcases hx with h | h
  · exact hS x h
  · obtain ⟨q, _, hxq⟩ := Finset.mem_biUnion.1 h
    exact getD_lookup_bound tr c htr _ x hxq

theorem epsClosure_agree (tr : TransMap) (ss : Finset Nat) (c cf : Nat)
    (htr : transBelow tr c) (hcf : c ≤ cf) : ∀ (fuel : Nat) (S : Finset Nat),
    (∀ x ∈ S, x < c) →
    epsClosure (((cf, Transition.Epsilon), ss) :: tr) fuel S =
      epsClosure tr fuel S ∧
    (∀ x ∈ epsClosure tr fuel S, x < c) := by
  intro fuel
  induction fuel with
  | zero =>
      intro S hS
      exact ⟨rfl, hS⟩
  | succ n ih =>
      intro S hS
      have hstep := epsStep_agree tr ss c cf hcf S hS
      have hbound := epsStep_bound tr c htr S hS
      by_cases he : epsStep tr S = S
      · constructor
        · simp only [epsClosure, hstep, he, if_pos]
        · simp only [epsClosure, he, if_pos]
          exact hS
      · constructor
        · simp only [epsClosure, hstep, if_neg he]
          exact (ih (epsStep tr S) hbound).1
        · simp only [epsClosure, if_neg he]
          exact (ih (epsStep tr S) hbound).2

theorem moveSet_agree (tr : TransMap) (ss : Finset Nat) (c cf : Nat)
    (hcf : c ≤ cf) (S : Finset Nat) (hS : ∀ x ∈ S, x < c) (ch : Char) :
    moveSet (((cf, Transition.Epsilon), ss) :: tr) S ch = moveSet tr S ch := by
  unfold moveSet
  apply Finset.biUnion_congr rfl
  intro q hq
  rw [lookupT_fresh_agree tr ss c cf hcf q _ (hS q hq)]

theorem moveSet_bound (tr : TransMap) (c : Nat) (htr : transBelow tr c)
    (S : Finset Nat) (ch : Char) : ∀ x ∈ moveSet tr S ch, x < c := by
  intro x hx
  obtain ⟨q, _, hxq⟩ := Finset.mem_biUnion.1 hx
  exact getD_lookup_bound tr c htr _ x hxq

theorem stepDfa_agree (tr : TransMap) (ss : Finset Nat) (c cf : Nat)
    (htr : transBelow tr c) (hcf : c ≤ cf) (fuel : Nat) (S : Finset Nat)
    (hS : ∀ x ∈ S, x < c) (ch : Char) :
    stepDfa (((cf, Transition.Epsilon), ss) :: tr) fuel S ch =
      stepDfa tr fuel S ch := by
  unfold stepDfa
  rw [moveSet_agree tr ss c cf hcf S hS ch]
  exact (epsClosure_agree tr ss c cf htr hcf fuel _
    (moveSet_bound tr c htr S ch)).1

theorem stepDfa_bound (tr : TransMap) (c : Nat) (htr : transBelow tr c)
    (fuel : Nat) (S : Finset Nat) (ch : Char) :
    ∀ x ∈ stepDfa tr fuel S ch, x < c := by
  have h := epsClosure_agree tr ∅ c c htr (le_refl c) fuel
    (moveSet tr S ch) (moveSet_bound tr c htr S ch)
  exact h.2

theorem dfaIter_agree (tr : TransMap) (ss : Finset Nat) (c cf : Nat)
    (htr : transBelow tr c) (hcf : c ≤ cf) (fuel : Nat) :
    ∀ (s : List Char) (S : Finset Nat), (∀ x ∈ S, x < c) →
    dfaIter (((cf, Transition.Epsilon), ss) :: tr) fuel S s =
      dfaIter tr fuel S s := by
  intro s
  induction s with
  | nil =>
      intro S _
      rfl
  | cons ch rest ih =>
      intro S hS
      have hstep := stepDfa_agree tr ss c cf htr hcf fuel S hS ch
      by_cases he : stepDfa tr fuel S ch = ∅
      · simp only [dfaIter, hstep, if_pos he]
      · simp only [dfaIter, hstep, if_neg he]
        rw [ih (stepDfa tr fuel S ch) (stepDfa_bound tr c htr fuel S ch)]

theorem insert_left_inj (a : Nat) (s t : Finset Nat) (hs : a ∉ s)
    (ht : a ∉ t) : insert a s = insert a t ↔ s = t := by
  constructor
  · intro h
    ext x
    constructor
    · intro hx
      have hx2 : x ∈ insert a t := by
        rw [← h]
        exact Finset.mem_insert_of_mem hx
      rcases Finset.mem_insert.1 hx2 with h1 | h1
      · subst h1
        exact absurd hx hs
      · exact h1
    · intro hx
      have hx2 : x ∈ insert a s := by
        rw [h]
        exact Finset.mem_insert_of_mem hx
      rcases Finset.mem_insert.1 hx2 with h1 | h1
      · subst h1
        exact absurd hx ht
      · exact h1
  · intro h
    rw [h]

theorem epsClosure_succ (tr : TransMap) (n : Nat) (S : Finset Nat) :
    epsClosure tr (n + 1) S =
      if epsStep tr S = S then S else epsClosure tr n (epsStep tr S) := rfl

theorem epsStep_fresh (tr : TransMap) (ss : Finset Nat) (c cf : Nat)
    (hcf : c ≤ cf) (X : Finset Nat) (hX : ∀ x ∈ X, x < c) (hss : ss ⊆ X) :
    epsStep (((cf, Transition.Epsilon), ss) :: tr) (insert cf X) =
      insert cf (epsStep tr X) := by
  have hcfl : lookupT (((cf, Transition.Epsilon), ss) :: tr)
      (cf, Transition.Epsilon) = some ss := by
    rw [lookupT_cons, if_pos rfl]
  ext x
  simp only [epsStep, Finset.mem_union, Finset.mem_insert, Finset.mem_biUnion]
  constructor
  · rintro ((h | h) | ⟨q, hq, hx⟩)
    · exact Or.inl h
    · exact Or.inr (Or.inl h)
    · rcases hq with h1 | h1
      · subst h1
        rw [hcfl] at hx
        exact Or.inr (Or.inl (hss hx))
      · rw [lookupT_fresh_agree tr ss c cf hcf q _ (hX q h1)] at hx
        exact Or.inr (Or.inr ⟨q, h1, hx⟩)
  · rintro (h | (h | ⟨q, hq, hx⟩))
    · exact Or.inl (Or.inl h)
    · exact Or.inl (Or.inr h)
    · refine Or.inr ⟨q, Or.inr hq, ?_⟩
      rw [lookupT_fresh_agree tr ss c cf hcf q _ (hX q hq)]
      exact hx

theorem epsClosure_fresh (tr : TransMap) (ss : Finset Nat) (c cf : Nat)
    (htr : transBelow tr c) (hcf : c ≤ cf) : ∀ (fuel : Nat) (X : Finset Nat),
    (∀ x ∈ X, x < c) → ss ⊆ X →
    epsClosure (((cf, Transition.Epsilon), ss) :: tr) fuel (insert cf X) =
      insert cf (epsClosure tr fuel X) := by
  intro fuel
  induction fuel with
  | zero =>
      intro X _ _
      rfl
  | succ n ih =>
      intro X hX hss
      have hstep := epsStep_fresh tr ss c cf hcf X hX hss
      have hcfX : cf ∉ X := by
        intro hmem
        have := hX cf hmem
        omega
      have hcfE : cf ∉ epsStep tr X := by
        intro hmem
        have := epsStep_bound tr c htr X hX cf hmem
        omega
      by_cases he : epsStep tr X = X
      · have heX : epsStep (((cf, Transition.Epsilon), ss) :: tr)
            (insert cf X) = insert cf X := by
          rw [hstep, he]
        simp only [epsClosure, heX, if_pos, he]
      · have hne : ¬ epsStep (((cf, Transition.Epsilon), ss) :: tr)
            (insert cf X) = insert cf X := by
          rw [hstep]
          intro hcon
          exact he ((insert_left_inj cf _ _ hcfE hcfX).1 hcon)
        rw [epsClosure_succ, if_neg hne, hstep, epsClosure_succ, if_neg he]
        exact ih (epsStep tr X) (epsStep_bound tr c htr X hX)
          (subset_trans hss (epsStep_supset tr X))

theorem epsClosure_start (tr : TransMap) (ss : Finset Nat) (c cf : Nat)
    (htr : transBelow tr c) (hcf : c ≤ cf) (hssb : ∀ x ∈ ss, x < c)
    (hssne : ss.Nonempty) (fuel : Nat) :
    epsClosure (((cf, Transition.Epsilon), ss) :: tr) (fuel + 1) {cf} =
      insert cf (epsClosure tr fuel ss) := by
  have h1 : epsStep (((cf, Transition.Epsilon), ss) :: tr) {cf} =
      insert cf ss := by
    unfold epsStep
    rw [Finset.singleton_biUnion, lookupT_cons, if_pos rfl]
    rw [Finset.insert_eq]
    rfl
  have hne : ¬ epsStep (((cf, Transition.Epsilon), ss) :: tr) {cf} =
      ({cf} : Finset Nat) := by
    rw [h1]
    intro hcon
    obtain ⟨x, hx⟩ := hssne
    have hx2 : x ∈ ({cf} : Finset Nat) := by
      rw [← hcon]
      exact Finset.mem_insert_of_mem hx
    have := Finset.mem_singleton.1 hx2
    have := hssb x hx
    omega
  rw [epsClosure_succ, if_neg hne, h1]
  exact epsClosure_fresh tr ss c cf htr hcf fuel ss hssb (subset_refl ss)

theorem moveSet_fresh (tr : TransMap) (ss : Finset Nat) (c cf : Nat)
    (htr : transBelow tr c) (hcf : c ≤ cf) (Z : Finset Nat)
    (hZ : ∀ x ∈ Z, x < c) (ch : Char) :
    moveSet (((cf, Transition.Epsilon), ss) :: tr) (insert cf Z) ch =
      moveSet tr Z ch := by
  unfold moveSet
  rw [Finset.biUnion_insert]
  rw [lookupT_fresh_input_none tr ss c cf htr hcf ch]
  have : (Option.getD (none : Option (Finset Nat)) ∅) = (∅ : Finset Nat) := rfl
  rw [this, Finset.empty_union]
  apply Finset.biUnion_congr rfl
  intro q hq
  rw [lookupT_fresh_agree tr ss c cf hcf q _ (hZ q hq)]

theorem dfaIter_fresh (tr : TransMap) (ss : Finset Nat) (c cf : Nat)
    (htr : transBelow tr c) (hcf : c ≤ cf) (fuel : Nat) (Z : Finset Nat)
    (hZ : ∀ x ∈ Z, x < c) (s : List Char) :
    dfaIter (((cf, Transition.Epsilon), ss) :: tr) fuel (insert cf Z) s =
      insert cf Z :: scanTail tr fuel Z s := by
  cases s with
  | nil => rfl
  | cons ch rest =>
      have hmove := moveSet_fresh tr ss c cf htr hcf Z hZ ch
      have hS' : stepDfa (((cf, Transition.Epsilon), ss) :: tr) fuel
          (insert cf Z) ch = stepDfa tr fuel Z ch := by
        unfold stepDfa
        rw [hmove]
        exact (epsClosure_agree tr ss c cf htr hcf fuel _
          (moveSet_bound tr c htr Z ch)).1
      by_cases he : stepDfa tr fuel Z ch = ∅
      · simp only [dfaIter, scanTail, hS', if_pos he]
      · simp only [dfaIter, scanTail, hS', if_neg he]
        rw [dfaIter_agree tr ss c cf htr hcf fuel rest _
          (stepDfa_bound tr c htr fuel Z ch)]

theorem list_find?_congr {α : Type} (p q : α → Bool) : ∀ (l : List α),
    (∀ x ∈ l, p x = q x) → l.find? p = l.find? q := by
  intro l
  induction l with
  | nil =>
      intro _
      rfl
  | cons x xs ih =>
      intro h
      have hx := h x (List.mem_cons_self x xs)
      cases hq : q x with
      | true =>
          rw [List.find?_cons_of_pos xs (by rw [hx, hq]),
            List.find?_cons_of_pos xs hq]
      | false =>
          rw [List.find?_cons_of_neg xs (by rw [hx, hq]; exact
            Bool.false_ne_true),
            List.find?_cons_of_neg xs (by rw [hq]; exact Bool.false_ne_true)]
          exact ih (fun y hy => h y (List.mem_cons_of_mem x hy))

theorem list_any_congr {α : Type} (p q : α → Bool) : ∀ (l : List α),
    (∀ x ∈ l, p x = q x) → l.any p = l.any q := by
  intro l
  induction l with
  | nil =>
      intro _
      rfl
  | cons x xs ih =>
      intro h
      simp only [List.any_cons]
      rw [h x (List.mem_cons_self x xs),
        ih (fun y hy => h y (List.mem_cons_of_mem x hy))]

theorem lexFold_fresh {T : Type} (accs : List Nat) (tokMap : List (Nat × T))
    (c cf : Nat) (haccb : ∀ a ∈ accs, a < c) (hcf : c ≤ cf) (Z : Finset Nat)
    (t : Option T) :
    lexFold accs tokMap t (insert cf Z) = lexFold accs tokMap t Z := by
  have hmem : ∀ a ∈ accs,
      (decide (a ∈ insert cf Z)) = (decide (a ∈ Z)) := by
    intro a ha
    have hne : ¬ a = cf := by
      have := haccb a ha
      omega
    simp [Finset.mem_insert, hne]
  unfold lexFold winningTok
  rw [list_any_congr _ _ accs hmem, list_find?_congr _ _ accs hmem]

theorem insertOv_fresh (tr : TransMap) (k : Nat × Transition) (v : Finset Nat)
    (h : ∀ e ∈ tr, ¬ e.1 = k) : insertOv tr k v = (k, v) :: tr := by
  unfold insertOv
  congr 1
  apply List.filter_eq_self.2
  intro e he
  simpa using h e he

theorem lexTok_fresh {T : Type} (tr : TransMap) (ss : Finset Nat)
    (accs : List Nat) (tokMap : List (Nat × T)) (c cf : Nat)
    (htr : transBelow tr c) (hssb : ∀ x ∈ ss, x < c)
    (haccb : ∀ b ∈ accs, b < c) (hssne : ss.Nonempty) (hcf : c ≤ cf)
    (F0 : Nat) (s : List Char) :
    (dfaIter (((cf, Transition.Epsilon), ss) :: tr) (F0 + 1)
        (epsClosure (((cf, Transition.Epsilon), ss) :: tr) (F0 + 1) {cf})
        s).foldl (lexFold accs tokMap) none =
    (scanTail tr (F0 + 1) (epsClosure tr F0 ss) s).foldl
      (lexFold accs tokMap)
      (lexFold accs tokMap none (epsClosure tr F0 ss)) := by
  have hZ : ∀ x ∈ epsClosure tr F0 ss, x < c :=
    (epsClosure_agree tr ss c cf htr hcf F0 ss hssb).2
  rw [epsClosure_start tr ss c cf htr hcf hssb hssne F0]
  rw [dfaIter_fresh tr ss c cf htr hcf (F0 + 1) _ hZ s]
  rw [List.foldl_cons]
  rw [lexFold_fresh accs tokMap c cf haccb hcf _ none]

/-- C9: scanning is deterministic and restartable.  The embedding of `lex`
is a pure function of the lexer state and the input (so a rerun from equal
states is identical, and `get_id` allocates `state_id, state_id + 1, ...`
deterministically for a fixed registration order).  The substantive part:
calling `lex` again on the same lexer — whose only change from the first
call is the advanced state-id counter, consumed by `merge_nfas` for the
fresh global start state — reproduces exactly the same token sequence,
because the fresh start id never influences the emitted tokens. -/
theorem lex_restartable {T : Type} (l : Lexer T) (s : List Char)
    (hwf : lexerWF l) (toks : List T) (l1 : Lexer T)
    (h : lex l s = .ok (toks, l1)) :
    ∃ l2, lex l1 s = .ok (toks, l2) := by
  by_cases hn : l.nfas.length > 0
  · unfold lex at h
    rw [if_pos hn] at h
    cases hmm : mergeNfas l.nfas l.nfaBuilder with
    | error p =>
        rw [hmm] at h
        cases h
    | ok v =>
        rw [hmm] at h
        obtain ⟨N, c1⟩ := v
        simp only [mergeNfas, getId] at hmm
        cases hmc : mergeCore l.nfas [] ∅ [] with
        | error p =>
            rw [hmc] at hmm
            simp only [exbind_error] at hmm
            cases hmm
        | ok res =>
            rw [hmc] at hmm
            obtain ⟨tr, ss, accs⟩ := res
            simp only [exbind_ok] at hmm
            cases hmm
            obtain ⟨htrm, hssm, haccm, hstarts, _⟩ :=
              mergeCore_mem l.nfas [] ∅ [] tr ss accs hmc
            have htr : transBelow tr l.nfaBuilder := by
              intro e he
              rcases htrm e he with h1 | ⟨m, hm, hem⟩
              · cases h1
              · exact (hwf m hm).2.2 e hem
            have hssb : ∀ x ∈ ss, x < l.nfaBuilder := by
              intro x hx
              rcases hssm x hx with h1 | ⟨m, hm, hxm⟩
              · exact absurd h1 (Finset.not_mem_empty x)
              · rw [hxm]
                exact (hwf m hm).1
            have haccb : ∀ b ∈ accs, b < l.nfaBuilder := by
              intro b hb
              rcases haccm b hb with h1 | ⟨m, hm, hbm⟩
              · cases h1
              · exact (hwf m hm).2.1 b hbm
            have hssne : ss.Nonempty := by
              cases hnl : l.nfas with
              | nil =>
                  rw [hnl] at hn
                  simp at hn
              | cons n0 rest0 =>
                  refine ⟨n0.startState, hstarts n0 ?_⟩
                  rw [hnl]
                  exact List.mem_cons_self n0 rest0
            have hins : ∀ cf : Nat, l.nfaBuilder ≤ cf →
                insertOv tr (cf, Transition.Epsilon) ss =
                  ((cf, Transition.Epsilon), ss) :: tr := by
              intro cf hcf
              apply insertOv_fresh
              intro e he hk
              have h1 : e.1.1 = cf := congrArg Prod.fst hk
              have h2 := (htr e he).1
              omega
            rw [hins l.nfaBuilder (le_refl _)] at h
            dsimp only at h
            cases h
            refine ⟨⟨l.nfaBuilder + 2, l.nfas, l.tokMap⟩, ?_⟩
            unfold lex
            dsimp only
            rw [if_pos hn]
            have hm2 : mergeNfas l.nfas (l.nfaBuilder + 1) =
                .ok (⟨l.nfaBuilder + 1, accs,
                  ((l.nfaBuilder + 1, Transition.Epsilon), ss) :: tr⟩,
                  l.nfaBuilder + 2) := by
              simp only [mergeNfas, getId, hmc, exbind_ok]
              rw [hins (l.nfaBuilder + 1) (by omega)]
            rw [hm2]
            dsimp only
            have hF1 : nfaFuel ⟨l.nfaBuilder, accs,
                ((l.nfaBuilder, Transition.Epsilon), ss) :: tr⟩ =
                (ss.card + (tr.map (fun e => e.2.card)).sum) + 1 := rfl
            have hF2 : nfaFuel ⟨l.nfaBuilder + 1, accs,
                ((l.nfaBuilder + 1, Transition.Epsilon), ss) :: tr⟩ =
                (ss.card + (tr.map (fun e => e.2.card)).sum) + 1 := rfl
            rw [hF1, hF2]
            rw [lexTok_fresh tr ss accs l.tokMap l.nfaBuilder l.nfaBuilder
              htr hssb haccb hssne (le_refl _) _ s]
            rw [lexTok_fresh tr ss accs l.tokMap l.nfaBuilder
              (l.nfaBuilder + 1) htr hssb haccb hssne (by omega) _ s]
  · unfold lex at h
    rw [if_neg hn] at h
    cases h
    refine ⟨l, ?_⟩
    unfold lex
    rw [if_neg hn]

theorem lex_restartable_witness :
    ∃ l2, lex (⟨8, lexerIfV.nfas, lexerIfV.tokMap⟩ : Lexer Tok) ['i', 'f'] =
      .ok ([Tok.IF], l2) :=
  lex_restartable lexerIfV ['i', 'f'] (by decide) [Tok.IF]
    ⟨8, lexerIfV.nfas, lexerIfV.tokMap⟩ (by decide)

end Rlex
